import Mathlib

/-!
# Verification of the kindred excerpt

Shallow embedding of the two source files of this excerpt of the kindred
relation-extraction toolkit:

* `src/kindred/LogisticRegressionWithThreshold.py` — a logistic-regression
  wrapper that replaces the default argmax decision rule with a custom
  probability threshold (`predict`, lines 48-70, and the constructor's
  threshold check, lines 15-33).
* `src/kindred/Parser.py` — `Parser.parse` (lines 49-109): per document,
  build an interval structure over entity character spans, run the NLP
  pipeline, build tokens and dependency edges, align entities to tokens,
  assemble one sentence per document and append it.

External collaborators (numpy's `argmax`, the `intervaltree` package's
overlap query, the spacy pipeline's token stream, and the kindred data
containers `Token` / `Sentence` / `Document` / `Corpus`, which the spec
lists as out-of-scope data holders) are embedded by their documented
observable behaviour: `np.argmax` returns the first index of the maximum;
`IntervalTree` is a set of intervals, and `tree[s:e]` returns every stored
interval `[lo,hi)` with `lo < e` and `s < hi`; the containers are plain
records, with `Document.addSentence` appending to the sentence list and
`Sentence.addEntityAnnotation` appending an (entity, token-locations) pair.
Probabilities and thresholds are embedded as rationals.
-/

/-! ## LogisticRegressionWithThreshold -/

/-- The constructor's validation, `LogisticRegressionWithThreshold.__init__`:
`assert threshold >= 0 and threshold <= 1, "Threshold must be between 0 and 1"`.
A failed Python `assert` raises; we embed the constructor as `Except`,
returning the stored threshold on success. -/
def thresholdInit (threshold : ℚ) : Except String ℚ :=
  if threshold ≥ 0 ∧ threshold ≤ 1 then .ok threshold
  else .error "Threshold must be between 0 and 1"

/-- `probs[probs < self.threshold] = -1.0` applied to one row of the
probability matrix. -/
def applyThreshold (threshold : ℚ) (probs : List ℚ) : List ℚ :=
  probs.map (fun p => if p < threshold then -1 else p)

/-- `probs[:,0] = -0.5` applied to one row. -/
def forceZeroClass (probs : List ℚ) : List ℚ :=
  match probs with
  | [] => []
  | _ :: rest => (-1/2) :: rest

/-- `np.argmax` on one row: the first index holding the maximum value
(numpy documents that ties return the first occurrence).  numpy raises on
an empty row; every call site below has a non-empty row, and we return 0
there. -/
def npArgmax : List ℚ → Nat
  | [] => 0
  | [_] => 0
  | x :: y :: ys =>
    if x < (y :: ys).getD (npArgmax (y :: ys)) 0 then npArgmax (y :: ys) + 1 else 0

/-- `LogisticRegressionWithThreshold.predict` restricted to a single row of
`predict_proba` output: threshold the row, force column 0 to `-0.5`, and
take the argmax (the code applies these operations to the whole matrix;
they act row-wise). -/
def predictRow (threshold : ℚ) (probs : List ℚ) : Nat :=
  npArgmax (forceZeroClass (applyThreshold threshold probs))

/-! ### Facts about `npArgmax` -/

lemma npArgmax_lt_length (l : List ℚ) (h : l ≠ []) : npArgmax l < l.length := by
  induction l with
  | nil => simp at h
  | cons x xs ih =>
    cases xs with
    | nil => simp [npArgmax]
    | cons y ys =>
      have h2 := ih (by simp)
      simp only [npArgmax]
      split
      · simpa using Nat.succ_lt_succ h2
      · simp

lemma npArgmax_is_max (l : List ℚ) :
    ∀ j < l.length, l.getD j 0 ≤ l.getD (npArgmax l) 0 := by
  induction l with
  | nil => intro j hj; simp at hj
  | cons x xs ih =>
    cases xs with
    | nil =>
      intro j hj
      simp only [List.length_cons, List.length_nil, Nat.lt_succ_iff, Nat.le_zero] at hj
      subst hj
      simp [npArgmax]
    | cons y ys =>
      intro j hj
      simp only [npArgmax]
      rcases lt_or_ge x ((y :: ys).getD (npArgmax (y :: ys)) 0) with hlt | hge
      · rw [if_pos hlt, List.getD_cons_succ]
        match j with
        | 0 => simpa using le_of_lt hlt
        | j + 1 =>
          rw [List.getD_cons_succ]
          exact ih j (by simpa using hj)
      · rw [if_neg (not_lt.mpr hge), List.getD_cons_zero]
        match j with
        | 0 => simp
        | j + 1 =>
          rw [List.getD_cons_succ]
          exact le_trans (ih j (by simpa using hj)) hge

lemma npArgmax_first (l : List ℚ) :
    ∀ j < npArgmax l, l.getD j 0 < l.getD (npArgmax l) 0 := by
  induction l with
  | nil => intro j hj; simp [npArgmax] at hj
  | cons x xs ih =>
    cases xs with
    | nil => intro j hj; simp [npArgmax] at hj
    | cons y ys =>
      intro j hj
      simp only [npArgmax] at hj ⊢
      rcases lt_or_ge x ((y :: ys).getD (npArgmax (y :: ys)) 0) with hlt | hge
      · rw [if_pos hlt] at hj ⊢
        rw [List.getD_cons_succ]
        match j with
        | 0 => simpa using hlt
        | j + 1 =>
          rw [List.getD_cons_succ]
          exact ih j (by omega)
      · rw [if_neg (not_lt.mpr hge)] at hj
        omega

/-- The three properties above pin `npArgmax` down uniquely. -/
lemma npArgmax_eq_of (l : List ℚ) (c : Nat) (hc : c < l.length)
    (hmax : ∀ j < l.length, l.getD j 0 ≤ l.getD c 0)
    (hfirst : ∀ j < c, l.getD j 0 < l.getD c 0) :
    npArgmax l = c := by
  have hne : l ≠ [] := by cases l <;> simp_all
  have hr := npArgmax_lt_length l hne
  rcases lt_trichotomy (npArgmax l) c with h | h | h
  · exact absurd (npArgmax_is_max l c hc) (not_le.mpr (hfirst _ h))
  · exact h
  · exact absurd (hmax _ hr) (not_le.mpr (npArgmax_first l c h))

/-! ### Facts about the adjusted row -/

lemma adjusted_length (t : ℚ) (probs : List ℚ) :
    (forceZeroClass (applyThreshold t probs)).length = probs.length := by
  cases probs <;> simp [forceZeroClass, applyThreshold]

lemma adjusted_getD_zero (t : ℚ) (probs : List ℚ) (h : probs ≠ []) :
    (forceZeroClass (applyThreshold t probs)).getD 0 0 = -1/2 := by
  cases probs <;> simp_all [forceZeroClass, applyThreshold]

lemma adjusted_getD_pos (t : ℚ) (probs : List ℚ) (i : Nat) (hi : 0 < i)
    (hlen : i < probs.length) :
    (forceZeroClass (applyThreshold t probs)).getD i 0 =
      if probs.getD i 0 < t then -1 else probs.getD i 0 := by
  match probs, i with
  | p :: ps, i + 1 =>
    simp only [forceZeroClass, applyThreshold, List.map_cons, List.getD_cons_succ]
    rw [List.getD_eq_getElem?_getD, List.getElem?_map, List.getD_eq_getElem?_getD]
    have : i < ps.length := by simpa using hlen
    rw [List.getElem?_eq_getElem this]
    simp

/-- Shared characterisation of `predictRow`: the zero-class criterion, and,
for a non-zero prediction, eligibility, maximality and first-occurrence
strictness.  Used by the theorems about `predict`. -/
lemma predictRow_facts (t : ℚ) (probs : List ℚ) (hne : probs ≠ []) (ht0 : 0 ≤ t) :
    (predictRow t probs = 0 ↔ ∀ i, 0 < i → i < probs.length → probs.getD i 0 < t) ∧
    (predictRow t probs ≠ 0 →
      0 < predictRow t probs ∧ predictRow t probs < probs.length ∧
      t ≤ probs.getD (predictRow t probs) 0 ∧
      (∀ i, 0 < i → i < probs.length → t ≤ probs.getD i 0 →
        probs.getD i 0 ≤ probs.getD (predictRow t probs) 0) ∧
      (∀ i, 0 < i → i < predictRow t probs → t ≤ probs.getD i 0 →
        probs.getD i 0 < probs.getD (predictRow t probs) 0)) := by
  have hadj0 := adjusted_getD_zero t probs hne
  have hlen := adjusted_length t probs
  set adj := forceZeroClass (applyThreshold t probs) with hadj
  have hpr : predictRow t probs = npArgmax adj := rfl
  have hadjne : adj ≠ [] := by
    intro h
    rw [h] at hlen
    exact hne (List.eq_nil_of_length_eq_zero hlen.symm)
  have hrlt : npArgmax adj < probs.length := hlen ▸ npArgmax_lt_length adj hadjne
  constructor
  · constructor
    · intro h0 i hi hilen
      by_contra hge
      push_neg at hge
      have h1 : adj.getD i 0 = probs.getD i 0 := by
        rw [adjusted_getD_pos t probs i hi hilen, if_neg (not_lt.mpr hge)]
      have h2 := npArgmax_is_max adj i (by omega)
      rw [hpr] at h0
      rw [h0, hadj0, h1] at h2
      have h3 : (0:ℚ) ≤ probs.getD i 0 := le_trans ht0 hge
      linarith
    · intro hall
      rw [hpr]
      apply npArgmax_eq_of adj 0 (by omega)
      · intro j hj
        rw [hadj0]
        rcases Nat.eq_zero_or_pos j with rfl | hjpos
        · rw [hadj0]
        · have hj' : adj.getD j 0 = -1 := by
            rw [adjusted_getD_pos t probs j hjpos (by omega),
              if_pos (hall j hjpos (by omega))]
          rw [hj']
          norm_num
      · intro j hj
        omega
  · intro hne0
    rw [hpr] at hne0 ⊢
    have hpos : 0 < npArgmax adj := Nat.pos_of_ne_zero hne0
    have hfirst0 : adj.getD 0 0 < adj.getD (npArgmax adj) 0 := npArgmax_first adj 0 hpos
    rw [hadj0] at hfirst0
    have hadjr := adjusted_getD_pos t probs (npArgmax adj) hpos hrlt
    have hnotlt : ¬ probs.getD (npArgmax adj) 0 < t := by
      intro hlt
      rw [hadjr, if_pos hlt] at hfirst0
      norm_num at hfirst0
    have hadjr' : adj.getD (npArgmax adj) 0 = probs.getD (npArgmax adj) 0 := by
      rw [hadjr, if_neg hnotlt]
    refine ⟨hpos, hrlt, not_lt.mp hnotlt, fun i hi hilen hti => ?_, fun i hi hir hti => ?_⟩
    · have h1 : adj.getD i 0 = probs.getD i 0 := by
        rw [adjusted_getD_pos t probs i hi hilen, if_neg (not_lt.mpr hti)]
      have h2 := npArgmax_is_max adj i (by omega)
      rw [h1, hadjr'] at h2
      exact h2
    · have h1 : adj.getD i 0 = probs.getD i 0 := by
        rw [adjusted_getD_pos t probs i hi (by omega), if_neg (not_lt.mpr hti)]
      have h2 := npArgmax_first adj i hir
      rw [h1, hadjr'] at h2
      exact h2

/-- C1: for a fitted classifier with threshold `t`, for every row of
predicted probabilities, `predict` returns class 0 iff every non-zero
class's probability is strictly below `t`; otherwise it returns a non-zero
class whose probability is `≥ t` and maximal among the non-zero classes
with probability `≥ t`. -/
theorem predict_zero_iff_all_below_threshold (t : ℚ) (probs : List ℚ)
    (hne : probs ≠ []) (ht0 : 0 ≤ t) (ht1 : t ≤ 1)
    (hp : ∀ p ∈ probs, 0 ≤ p ∧ p ≤ 1) :
    (predictRow t probs = 0 ↔ ∀ i, 0 < i → i < probs.length → probs.getD i 0 < t) ∧
    (predictRow t probs ≠ 0 →
      0 < predictRow t probs ∧ predictRow t probs < probs.length ∧
      t ≤ probs.getD (predictRow t probs) 0 ∧
      ∀ i, 0 < i → i < probs.length → t ≤ probs.getD i 0 →
        probs.getD i 0 ≤ probs.getD (predictRow t probs) 0) := by
  obtain ⟨h1, h2⟩ := predictRow_facts t probs hne ht0
  refine ⟨h1, fun h => ?_⟩
  obtain ⟨a, b, c, d, _⟩ := h2 h
  exact ⟨a, b, c, d⟩

/-- Witness for C1 on the row `[1/10, 7/10, 1/5]` with threshold `1/2`. -/
theorem predict_zero_iff_all_below_threshold_witness :
    (predictRow (1/2) [1/10, 7/10, 1/5] = 0 ↔
      ∀ i, 0 < i → i < ([1/10, 7/10, 1/5] : List ℚ).length →
        ([1/10, 7/10, 1/5] : List ℚ).getD i 0 < 1/2) ∧
    (predictRow (1/2) [1/10, 7/10, 1/5] ≠ 0 →
      0 < predictRow (1/2) [1/10, 7/10, 1/5] ∧
      predictRow (1/2) [1/10, 7/10, 1/5] < ([1/10, 7/10, 1/5] : List ℚ).length ∧
      1/2 ≤ ([1/10, 7/10, 1/5] : List ℚ).getD (predictRow (1/2) [1/10, 7/10, 1/5]) 0 ∧
      ∀ i, 0 < i → i < ([1/10, 7/10, 1/5] : List ℚ).length →
        1/2 ≤ ([1/10, 7/10, 1/5] : List ℚ).getD i 0 →
        ([1/10, 7/10, 1/5] : List ℚ).getD i 0 ≤
          ([1/10, 7/10, 1/5] : List ℚ).getD (predictRow (1/2) [1/10, 7/10, 1/5]) 0) :=
  predict_zero_iff_all_below_threshold (1/2) [1/10, 7/10, 1/5]
    (by simp) (by norm_num) (by norm_num)
    (by intro p hp; simp only [List.mem_cons, List.not_mem_nil, or_false] at hp
        rcases hp with rfl | rfl | rfl <;> norm_num)

/-- C2: for a fixed row of predicted probabilities and thresholds
`t1 ≤ t2` in `[0,1]`, if `predict` under `t2` returns a non-zero class then
`predict` under `t1` returns the same class — raising the threshold can only
move a row to class 0, never to a different non-zero class and never away
from class 0. -/
theorem predict_threshold_monotone (t1 t2 : ℚ) (probs : List ℚ)
    (hne : probs ≠ []) (ht0 : 0 ≤ t1) (h12 : t1 ≤ t2) (ht1 : t2 ≤ 1)
    (hp : ∀ p ∈ probs, 0 ≤ p ∧ p ≤ 1)
    (hnz : predictRow t2 probs ≠ 0) :
    predictRow t1 probs = predictRow t2 probs := by
  obtain ⟨-, hfacts⟩ := predictRow_facts t2 probs hne (le_trans ht0 h12)
  obtain ⟨hpos, hlt, helig, hmax, hfirst⟩ := hfacts hnz
  set c := predictRow t2 probs with hc
  have hlenadj := adjusted_length t1 probs
  have hadj0 := adjusted_getD_zero t1 probs hne
  set adj := forceZeroClass (applyThreshold t1 probs) with hadjdef
  have hpr : predictRow t1 probs = npArgmax adj := rfl
  have hadjc : adj.getD c 0 = probs.getD c 0 := by
    rw [adjusted_getD_pos t1 probs c hpos hlt,
      if_neg (not_lt.mpr (le_trans h12 helig))]
  have hcge : (0:ℚ) ≤ probs.getD c 0 := le_trans (le_trans ht0 h12) helig
  rw [hpr]
  apply npArgmax_eq_of adj c (by omega)
  · intro j hj
    rw [hadjc]
    rcases Nat.eq_zero_or_pos j with rfl | hjpos
    · rw [hadj0]
      linarith
    · rw [adjusted_getD_pos t1 probs j hjpos (by omega)]
      split
      · linarith
      case isFalse hj1 =>
        push_neg at hj1
        rcases le_or_lt t2 (probs.getD j 0) with hj2 | hj2
        · exact hmax j hjpos (by omega) hj2
        · linarith [le_trans h12 helig]
  · intro j hj
    rw [hadjc]
    rcases Nat.eq_zero_or_pos j with rfl | hjpos
    · rw [hadj0]
      linarith
    · rw [adjusted_getD_pos t1 probs j hjpos (by omega)]
      split
      · linarith
      case isFalse hj1 =>
        push_neg at hj1
        rcases le_or_lt t2 (probs.getD j 0) with hj2 | hj2
        · exact hfirst j hjpos hj hj2
        · linarith [le_trans h12 helig]

/-- Witness for C2 on the row `[1/10, 7/10, 1/5]` with thresholds `1/4 ≤ 1/2`. -/
theorem predict_threshold_monotone_witness :
    predictRow (1/4) [1/10, 7/10, 1/5] = predictRow (1/2) [1/10, 7/10, 1/5] :=
  predict_threshold_monotone (1/4) (1/2) [1/10, 7/10, 1/5]
    (by simp) (by norm_num) (by norm_num) (by norm_num)
    (by intro p hp; simp only [List.mem_cons, List.not_mem_nil, or_false] at hp
        rcases hp with rfl | rfl | rfl <;> norm_num)
    (by norm_num [predictRow, applyThreshold, forceZeroClass, npArgmax])

/-- C5: constructing the classifier succeeds for every threshold in
`[0,1]` and is rejected (the constructor's assertion fails) for every
threshold outside `[0,1]`. -/
theorem thresholdInit_range (t : ℚ) :
    (0 ≤ t ∧ t ≤ 1 → thresholdInit t = .ok t) ∧
    ((t < 0 ∨ 1 < t) →
      thresholdInit t = .error "Threshold must be between 0 and 1") := by
  constructor
  · rintro ⟨h0, h1⟩
    rw [thresholdInit, if_pos ⟨h0, h1⟩]
  · intro h
    have hn : ¬ (t ≥ 0 ∧ t ≤ 1) := by
      rintro ⟨h0, h1⟩
      rcases h with h | h <;> linarith
    rw [thresholdInit, if_neg hn]

/-- Witness for C5 at thresholds `1/2` (accepted) and `2` (rejected). -/
theorem thresholdInit_range_witness :
    thresholdInit (1/2) = .ok (1/2) ∧
    thresholdInit 2 = .error "Threshold must be between 0 and 1" :=
  ⟨(thresholdInit_range (1/2)).1 (by norm_num), (thresholdInit_range 2).2 (by norm_num)⟩

/-! ## Parser

The data containers below are the kindred corpus model, which the spec
lists as an out-of-scope collaborator ("corpus/document/entity data
containers"); they are embedded as plain records following the spec's data
model (§3), with `addSentence` / `addEntityAnnotation` as list appends.
The spacy pipeline is embedded as a function from document text to the
lexical items of the parsed document; `Parser._sentencesGenerator`
(lines 37-44) returns that whole parsed document as the single
"sentence". -/

/-- A lexical item of the spacy pipeline output, with the attributes
`Parser.parse` reads: `t.text`, `t.lemma_`, `t.pos_`, `t.idx` (character
offset), `t.i` (document-wide token index), `t.head.i` and `t.dep_`. -/
structure SpacyToken where
  text : List Char
  lemma_ : String
  pos : String
  idx : Nat
  i : Nat
  headI : Nat
  dep : String
deriving DecidableEq

/-- An entity annotation: identifier, type label, and one or more half-open
character spans `[a, b)` in the document text. -/
structure Entity where
  entityID : Nat
  entityType : String
  position : List (Nat × Nat)
deriving DecidableEq

/-- `kindred.Token` as constructed on line 78:
`kindred.Token(t.text, t.lemma_, t.pos_, t.idx, t.idx+len(t.text))`. -/
structure Token where
  word : List Char
  lemma_ : String
  partofspeech : String
  startPos : Nat
  endPos : Nat
deriving DecidableEq

/-- `kindred.Sentence` plus the annotations added by
`sentence.addEntityAnnotation(e, entityLocs)` (line 105), in call order. -/
structure Sentence where
  text : List Char
  tokens : List Token
  dependencies : List (Int × Int × String)
  sourceFilename : String
  entityAnnotations : List (Entity × List Nat)
deriving DecidableEq

/-- A kindred document: raw text and entities in, sentences out
(`d.addSentence(sentence)` appends). -/
structure Document where
  text : List Char
  sourceFilename : String
  entities : List Entity
  sentences : List Sentence
deriving DecidableEq

/-- A kindred corpus: documents plus the `parsed` completion flag. -/
structure Corpus where
  documents : List Document
  parsed : Bool
deriving DecidableEq

/-- Python list/string slicing `s[a:b]` for `0 ≤ a ≤ b` (clamped at the
ends). -/
def pySlice (s : List Char) (a b : Nat) : List Char :=
  (s.take b).drop a

/-- An interval stored in the `IntervalTree`: span `[lo, hi)` carrying an
entity identifier as data. -/
structure TreeInterval where
  lo : Nat
  hi : Nat
  data : Nat
deriving DecidableEq

/-- `tree[a:b] = x` on an `IntervalTree` adds `Interval(a,b,x)` to a set of
intervals: a duplicate insertion is a no-op.  We keep the set as a
duplicate-free list in insertion order. -/
def treeInsert (tree : List TreeInterval) (iv : TreeInterval) : List TreeInterval :=
  if iv ∈ tree then tree else tree ++ [iv]

/-- Lines 68-73: for every entity and every span `(a,b)` of it with
`b > a`, store `denotationTree[a:b] = e.entityID`. -/
def buildDenotationTree (entities : List Entity) : List TreeInterval :=
  entities.foldl (fun tree e =>
    e.position.foldl (fun tree ab =>
      if ab.2 > ab.1 then treeInsert tree ⟨ab.1, ab.2, e.entityID⟩ else tree) tree) []

/-- `denotationTree[s:e]` (line 94): the stored intervals `[lo,hi)` with
`lo < e` and `s < hi` — the `intervaltree` package's overlap test for a
queried range `[s,e)`. -/
def treeOverlaps (tree : List TreeInterval) (s e : Nat) : List TreeInterval :=
  tree.filter (fun iv => iv.lo < e && s < iv.hi)

/-- Lines 92-97 for a single entity identifier: walking the tokens from
local index `i` upward, append the token's index once per overlapping
stored interval whose data is `eid`.  (Each query's set iteration order is
arbitrary in Python, but every append for one token appends that same
token index, so the resulting list is iteration-order independent.) -/
def collectLocs (tree : List TreeInterval) (eid : Nat) : List Token → Nat → List Nat
  | [], _ => []
  | t :: ts, i =>
    ((treeOverlaps tree t.startPos t.endPos).filter (fun iv => iv.data = eid)).map
        (fun _ => i)
      ++ collectLocs tree eid ts (i + 1)

/-- The value of `entityIDsToTokenLocs[eid]` after the loop of lines
92-97 (empty if the key was never created). -/
def entityIDsToTokenLocs (tree : List TreeInterval) (tokens : List Token) (eid : Nat) :
    List Nat :=
  collectLocs tree eid tokens 0

/-- Every `interval.data` read on line 96, in token order: the keys of
`entityIDsToTokenLocs`, with duplicates. -/
def collectKeys (tree : List TreeInterval) : List Token → List Nat
  | [] => []
  | t :: ts =>
    (treeOverlaps tree t.startPos t.endPos).map (fun iv => iv.data)
      ++ collectKeys tree ts

/-- The key order of `sorted(entityIDsToTokenLocs.items())` (line 102):
the distinct keys in ascending order (Python's `sorted`; on a
duplicate-free list of naturals any correct sort yields it). -/
def sortedDictKeys (tree : List TreeInterval) (tokens : List Token) : List Nat :=
  List.insertionSort (· ≤ ·) (collectKeys tree tokens).dedup

/-- Line 64: `{ entity.entityID:entity for entity in d.entities }` — in a
dict comprehension a later entity with the same ID overwrites an earlier
one, so lookup returns the last matching entity. -/
def entityIDsToEntities (entities : List Entity) (eid : Nat) : Option Entity :=
  (entities.filter (fun e => e.entityID = eid)).getLast?

/-- Line 78. -/
def mkToken (t : SpacyToken) : Token :=
  ⟨t.text, t.lemma_, t.pos, t.idx, t.idx + t.text.length⟩

/-- The sentence built for one document by the body of the loop of lines
75-105.  `none` models the `IndexError` raised by `tokens[0]` (line 81)
when the pipeline produced no token.  The annotation loop looks each
sorted key up in `entityIDsToEntities` (line 104); a missing key would be
a `KeyError`, which `Option.map` skips — the keys all come from stored
intervals, whose data are entity IDs, so that branch is unreachable. -/
def docSentence (nlp : List Char → List SpacyToken) (d : Document) : Option Sentence :=
  match nlp d.text with
  | [] => none
  | st0 :: rest =>
    let denotationTree := buildDenotationTree d.entities
    let tokens := (st0 :: rest).map mkToken
    let sentenceStart := (mkToken st0).startPos
    let sentenceEnd := (tokens.getLast (List.cons_ne_nil _ _)).endPos
    let sentenceTxt := pySlice d.text sentenceStart sentenceEnd
    let indexOffset := st0.i
    let dependencies := (st0 :: rest).map (fun t =>
      ((t.headI : Int) - (indexOffset : Int), ((t.i : Int) - (indexOffset : Int), t.dep)))
    let annots := (sortedDictKeys denotationTree tokens).filterMap (fun eid =>
      (entityIDsToEntities d.entities eid).map
        (fun e => (e, entityIDsToTokenLocs denotationTree tokens eid)))
    some ⟨sentenceTxt, tokens, dependencies, d.sourceFilename, annots⟩

/-- One iteration of the document loop of `Parser.parse` (lines 63-107):
compute the sentence and append it (`d.addSentence`). -/
def parseDocument (nlp : List Char → List SpacyToken) (d : Document) :
    Option Document :=
  (docSentence nlp d).map (fun s => { d with sentences := d.sentences ++ [s] })

/-- The document loop of `parse`, in corpus order; `none` models an
uncaught exception part-way. -/
def parseDocs (nlp : List Char → List SpacyToken) :
    List Document → Option (List Document)
  | [] => some []
  | d :: ds =>
    match parseDocument nlp d, parseDocs nlp ds with
    | some d2, some ds2 => some (d2 :: ds2)
    | _, _ => none

/-- `Parser.parse` (lines 49-109): process every document, then set
`corpus.parsed = True` (line 109). -/
def parse (nlp : List Char → List SpacyToken) (c : Corpus) : Option Corpus :=
  match parseDocs nlp c.documents with
  | some ds => some { documents := ds, parsed := true }
  | none => none

/-! ### Facts about the denotation tree and the alignment loop -/

/-- Placeholder token used as the default of `List.getD` in statements. -/
def dummyToken : Token := ⟨[], "", "", 0, 0⟩

lemma mem_treeInsert {tree : List TreeInterval} {iv j : TreeInterval} :
    j ∈ treeInsert tree iv ↔ j ∈ tree ∨ j = iv := by
  by_cases hmem : iv ∈ tree
  · simp only [treeInsert, if_pos hmem]
    constructor
    · exact Or.inl
    · rintro (h | rfl) <;> assumption
  · simp only [treeInsert, if_neg hmem]
    simp

lemma mem_posFold {positions : List (Nat × Nat)} {eid : Nat}
    {tree : List TreeInterval} {j : TreeInterval} :
    j ∈ positions.foldl (fun tree ab =>
        if ab.2 > ab.1 then treeInsert tree ⟨ab.1, ab.2, eid⟩ else tree) tree ↔
      j ∈ tree ∨ ∃ ab ∈ positions, ab.1 < ab.2 ∧ j = ⟨ab.1, ab.2, eid⟩ := by
  induction positions generalizing tree with
  | nil => simp
  | cons ab abs ih =>
    simp only [List.foldl_cons]
    rw [ih]
    by_cases hab : ab.2 > ab.1
    · rw [if_pos hab, mem_treeInsert]
      constructor
      · rintro ((h | rfl) | ⟨ab', hmem, h1, h2⟩)
        · exact Or.inl h
        · exact Or.inr ⟨ab, List.mem_cons_self ab abs, hab, rfl⟩
        · exact Or.inr ⟨ab', List.mem_cons_of_mem ab hmem, h1, h2⟩
      · rintro (h | ⟨ab', hmem, h1, h2⟩)
        · exact Or.inl (Or.inl h)
        · rcases List.mem_cons.mp hmem with rfl | hmem'
          · exact Or.inl (Or.inr h2)
          · exact Or.inr ⟨ab', hmem', h1, h2⟩
    · rw [if_neg hab]
      constructor
      · rintro (h | ⟨ab', hmem, h1, h2⟩)
        · exact Or.inl h
        · exact Or.inr ⟨ab', List.mem_cons_of_mem ab hmem, h1, h2⟩
      · rintro (h | ⟨ab', hmem, h1, h2⟩)
        · exact Or.inl h
        · rcases List.mem_cons.mp hmem with rfl | hmem'
          · exact absurd h1 hab
          · exact Or.inr ⟨ab', hmem', h1, h2⟩

lemma mem_buildDenotationTree {entities : List Entity} {j : TreeInterval} :
    j ∈ buildDenotationTree entities ↔
      ∃ e ∈ entities, ∃ ab ∈ e.position, ab.1 < ab.2 ∧ j = ⟨ab.1, ab.2, e.entityID⟩ := by
  have main : ∀ tree : List TreeInterval,
      j ∈ entities.foldl (fun tree e =>
          e.position.foldl (fun tree ab =>
            if ab.2 > ab.1 then treeInsert tree ⟨ab.1, ab.2, e.entityID⟩ else tree) tree)
        tree ↔
      j ∈ tree ∨ ∃ e ∈ entities, ∃ ab ∈ e.position, ab.1 < ab.2 ∧
        j = ⟨ab.1, ab.2, e.entityID⟩ := by
    induction entities with
    | nil => simp
    | cons e es ih =>
      intro tree
      simp only [List.foldl_cons]
      rw [ih, mem_posFold]
      constructor
      · rintro ((h | ⟨ab, hmem, h1, h2⟩) | ⟨e', hmem', hrest⟩)
        · exact Or.inl h
        · exact Or.inr ⟨e, List.mem_cons_self e es, ab, hmem, h1, h2⟩
        · exact Or.inr ⟨e', List.mem_cons_of_mem e hmem', hrest⟩
      · rintro (h | ⟨e', hmem', hrest⟩)
        · exact Or.inl (Or.inl h)
        · rcases List.mem_cons.mp hmem' with rfl | hmem''
          · exact Or.inl (Or.inr hrest)
          · exact Or.inr ⟨e', hmem'', hrest⟩
  simpa using main []

lemma mem_treeOverlaps {tree : List TreeInterval} {s e : Nat} {j : TreeInterval} :
    j ∈ treeOverlaps tree s e ↔ j ∈ tree ∧ j.lo < e ∧ s < j.hi := by
  simp [treeOverlaps, List.mem_filter, and_assoc]

lemma mem_collectLocs {tree : List TreeInterval} {eid : Nat}
    {tokens : List Token} {i0 j : Nat} :
    j ∈ collectLocs tree eid tokens i0 ↔
      ∃ k, k < tokens.length ∧ j = i0 + k ∧
        ∃ iv ∈ treeOverlaps tree (tokens.getD k dummyToken).startPos
            (tokens.getD k dummyToken).endPos, iv.data = eid := by
  induction tokens generalizing i0 with
  | nil => simp [collectLocs]
  | cons t ts ih =>
    simp only [collectLocs, List.mem_append, List.mem_map, List.mem_filter, ih]
    constructor
    · rintro (⟨iv, ⟨hiv, hdata⟩, rfl⟩ | ⟨k, hk, rfl, iv, hiv, hdata⟩)
      · exact ⟨0, by simp, by omega,
          iv, by simpa using hiv, by simpa using hdata⟩
      · exact ⟨k + 1, by simpa using hk, by omega,
          iv, by simpa using hiv, hdata⟩
    · rintro ⟨k, hk, rfl, iv, hiv, hdata⟩
      match k with
      | 0 =>
        exact Or.inl ⟨iv, ⟨by simpa using hiv, by simpa using hdata⟩, by omega⟩
      | k + 1 =>
        exact Or.inr ⟨k, by simpa using hk, by omega, iv, by simpa using hiv, hdata⟩

lemma collectLocs_ge {tree : List TreeInterval} {eid : Nat}
    {tokens : List Token} {i0 : Nat} :
    ∀ j ∈ collectLocs tree eid tokens i0, i0 ≤ j := by
  induction tokens generalizing i0 with
  | nil => simp [collectLocs]
  | cons t ts ih =>
    intro j hj
    simp only [collectLocs, List.mem_append, List.mem_map] at hj
    rcases hj with ⟨iv, _, rfl⟩ | hj
    · exact le_refl _
    · exact le_trans (Nat.le_succ i0) (ih j hj)

lemma collectLocs_sorted (tree : List TreeInterval) (eid : Nat)
    (tokens : List Token) (i0 : Nat) :
    (collectLocs tree eid tokens i0).Sorted (· ≤ ·) := by
  induction tokens generalizing i0 with
  | nil => simp [collectLocs]
  | cons t ts ih =>
    simp only [collectLocs]
    rw [List.Sorted, List.pairwise_append]
    refine ⟨?_, ih (i0 + 1), ?_⟩
    · rw [List.pairwise_map]
      exact List.pairwise_of_forall (fun _ _ => le_refl i0)
    · intro a ha b hb
      simp only [List.mem_map] at ha
      obtain ⟨iv, _, rfl⟩ := ha
      exact le_trans (Nat.le_succ i0) (collectLocs_ge b hb)

lemma mem_collectKeys {tree : List TreeInterval} {tokens : List Token} {eid : Nat} :
    eid ∈ collectKeys tree tokens ↔
      ∃ tok ∈ tokens, ∃ iv ∈ treeOverlaps tree tok.startPos tok.endPos,
        iv.data = eid := by
  induction tokens with
  | nil => simp [collectKeys]
  | cons t ts ih =>
    simp only [collectKeys, List.mem_append, List.mem_map, ih, List.mem_cons]
    constructor
    · rintro (⟨iv, hiv, rfl⟩ | ⟨tok, htok, hrest⟩)
      · exact ⟨t, Or.inl rfl, iv, hiv, rfl⟩
      · exact ⟨tok, Or.inr htok, hrest⟩
    · rintro ⟨tok, rfl | htok, iv, hiv, hdata⟩
      · exact Or.inl ⟨iv, hiv, hdata⟩
      · exact Or.inr ⟨tok, htok, iv, hiv, hdata⟩

lemma mem_sortedDictKeys {tree : List TreeInterval} {tokens : List Token} {eid : Nat} :
    eid ∈ sortedDictKeys tree tokens ↔ eid ∈ collectKeys tree tokens := by
  unfold sortedDictKeys
  rw [(List.perm_insertionSort _ _).mem_iff, List.mem_dedup]

lemma entityIDsToEntities_spec {entities : List Entity} {eid : Nat} {e : Entity}
    (h : entityIDsToEntities entities eid = some e) :
    e ∈ entities ∧ e.entityID = eid := by
  unfold entityIDsToEntities at h
  obtain ⟨hne, heq⟩ := List.mem_getLast?_eq_getLast (Option.mem_def.mpr h)
  have hmem : e ∈ entities.filter (fun e => e.entityID = eid) :=
    heq ▸ List.getLast_mem hne
  have hsplit := List.mem_filter.mp hmem
  exact ⟨hsplit.1, by simpa using hsplit.2⟩

lemma entityIDsToEntities_of_nodup {entities : List Entity}
    (huniq : (entities.map Entity.entityID).Nodup) {e : Entity} (he : e ∈ entities) :
    entityIDsToEntities entities e.entityID = some e := by
  have hne : entities.filter (fun x => x.entityID = e.entityID) ≠ [] := by
    intro hnil
    have hmem : e ∈ entities.filter (fun x => x.entityID = e.entityID) :=
      List.mem_filter.mpr ⟨he, by simp⟩
    rw [hnil] at hmem
    simp at hmem
  obtain ⟨e', he'⟩ :=
    Option.isSome_iff_exists.mp (List.getLast?_isSome.mpr hne)
  have hspec := @entityIDsToEntities_spec entities e.entityID e' he'
  have heq : e' = e :=
    List.inj_on_of_nodup_map huniq hspec.1 he hspec.2
  unfold entityIDsToEntities
  rw [he', heq]

/-! ### Unfolding `docSentence` -/

lemma docSentence_cons {nlp : List Char → List SpacyToken} {d : Document}
    {st0 : SpacyToken} {rest : List SpacyToken} (h : nlp d.text = st0 :: rest) :
    docSentence nlp d = some {
      text := pySlice d.text (mkToken st0).startPos
        ((((st0 :: rest).map mkToken).getLast (List.cons_ne_nil _ _)).endPos),
      tokens := (st0 :: rest).map mkToken,
      dependencies := (st0 :: rest).map (fun t =>
        ((t.headI : Int) - (st0.i : Int), ((t.i : Int) - (st0.i : Int), t.dep))),
      sourceFilename := d.sourceFilename,
      entityAnnotations := (sortedDictKeys (buildDenotationTree d.entities)
          ((st0 :: rest).map mkToken)).filterMap
        (fun eid => (entityIDsToEntities d.entities eid).map
          (fun e => (e, entityIDsToTokenLocs (buildDenotationTree d.entities)
            ((st0 :: rest).map mkToken) eid))) } := by
  unfold docSentence
  rw [h]

lemma docSentence_eq_none_iff {nlp : List Char → List SpacyToken} {d : Document} :
    docSentence nlp d = none ↔ nlp d.text = [] := by
  unfold docSentence
  cases hn : nlp d.text with
  | nil => simp
  | cons a l => simp

lemma parseDocument_some_iff {nlp : List Char → List SpacyToken}
    {d d' : Document} :
    parseDocument nlp d = some d' ↔
      ∃ s, docSentence nlp d = some s ∧
        d' = { d with sentences := d.sentences ++ [s] } := by
  unfold parseDocument
  cases h : docSentence nlp d with
  | none => simp
  | some s => simp [eq_comm]

/-- `docSentence` reads only `text`, `entities` and `sourceFilename`, never
the sentence list. -/
lemma docSentence_sentences_irrel (nlp : List Char → List SpacyToken)
    (d : Document) (ss : List Sentence) :
    docSentence nlp { d with sentences := ss } = docSentence nlp d := by
  cases d
  rfl

/-- Placeholder pipeline token used as the default of `List.getD` in
statements. -/
def dummySpacyToken : SpacyToken := ⟨[], "", "", 0, 0, 0, ""⟩

/-- Placeholder document used as the default of `List.getD` in
statements. -/
def dummyDocument : Document := ⟨[], "", [], []⟩

lemma getD_map_of_lt {α β : Type} (f : α → β) (l : List α) (k : Nat)
    (hk : k < l.length) (da : α) (db : β) :
    (l.map f).getD k db = f (l.getD k da) := by
  rw [List.getD_eq_getElem?_getD, List.getElem?_map, List.getD_eq_getElem?_getD,
    List.getElem?_eq_getElem hk]
  simp

lemma getD_mem_of_lt {α : Type} (l : List α) (k : Nat) (hk : k < l.length)
    (da : α) : l.getD k da ∈ l := by
  rw [List.getD_eq_getElem?_getD, List.getElem?_eq_getElem hk]
  exact List.getElem_mem hk

/-- If one document's pipeline output is empty, the whole `parse` run dies
on it. -/
lemma parseDocs_eq_none_of_mem {nlp : List Char → List SpacyToken}
    {d : Document} {ds : List Document} (hmem : d ∈ ds)
    (hfail : parseDocument nlp d = none) : parseDocs nlp ds = none := by
  induction ds with
  | nil => cases hmem
  | cons dd dds ih =>
    rcases List.mem_cons.mp hmem with rfl | hmem'
    · simp [parseDocs, hfail]
    · cases h1 : parseDocument nlp dd with
      | none => simp [parseDocs, h1]
      | some d2 => simp [parseDocs, h1, ih hmem']

/-- C9: a document whose segmentation unit contains zero tokens makes
`parse` fail — `tokens[0]` (line 81) is out of bounds, and the embedded
error branch (`none`) is reached, both for the document step and for any
corpus containing the document. -/
theorem parse_empty_unit_fails (nlp : List Char → List SpacyToken) (d : Document)
    (h : nlp d.text = []) :
    parseDocument nlp d = none ∧
    ∀ c : Corpus, d ∈ c.documents → parse nlp c = none := by
  have hdoc : parseDocument nlp d = none := by
    unfold parseDocument
    rw [docSentence_eq_none_iff.mpr h]
    rfl
  refine ⟨hdoc, fun c hc => ?_⟩
  unfold parse
  rw [parseDocs_eq_none_of_mem hc hdoc]

/-- Witness for C9: a document with empty text, on a pipeline returning no
token for it. -/
theorem parse_empty_unit_fails_witness :
    parseDocument (fun _ => []) (⟨[], "f", [], []⟩ : Document) = none ∧
    ∀ c : Corpus, (⟨[], "f", [], []⟩ : Document) ∈ c.documents →
      parse (fun _ => []) c = none :=
  parse_empty_unit_fails (fun _ => []) ⟨[], "f", [], []⟩ rfl

/-- C4: for every document with at least one pipeline-produced token,
`parse` appends exactly one sentence record to the document — the whole
document text is one segmentation unit, however many linguistic sentences
it contains. -/
theorem parse_appends_one_sentence (nlp : List Char → List SpacyToken)
    (d : Document) (h : nlp d.text ≠ []) :
    ∃ d' s, parseDocument nlp d = some d' ∧
      d'.sentences = d.sentences ++ [s] ∧
      d'.sentences.length = d.sentences.length + 1 := by
  obtain ⟨st0, rest, hr⟩ := List.exists_cons_of_ne_nil h
  obtain ⟨s, hds⟩ : ∃ s, docSentence nlp d = some s := ⟨_, docSentence_cons hr⟩
  refine ⟨{ d with sentences := d.sentences ++ [s] }, s, ?_, rfl, by simp⟩
  unfold parseDocument
  rw [hds]
  rfl

/-! ### Concrete fixtures used by the witnesses -/

/-- The text "ab cd". -/
def sampleText : List Char := ['a', 'b', ' ', 'c', 'd']

/-- Pipeline output for `sampleText`: tokens "ab" (offset 0, index 0) and
"cd" (offset 3, index 1), the first headed by the second. -/
def sampleTokens : List SpacyToken :=
  [⟨['a', 'b'], "ab", "NOUN", 0, 0, 1, "compound"⟩,
   ⟨['c', 'd'], "cd", "NOUN", 3, 1, 1, "ROOT"⟩]

/-- A deterministic pipeline: `sampleTokens` on `sampleText`, no token
otherwise. -/
def sampleNlp : List Char → List SpacyToken :=
  fun t => if t = sampleText then sampleTokens else []

/-- An entity covering the first token. -/
def entDrug : Entity := ⟨1, "drug", [(0, 2)]⟩

/-- An entity whose spans are all empty or inverted. -/
def entDegenerate : Entity := ⟨2, "x", [(4, 4), (3, 2)]⟩

/-- A document over `sampleText` with the two entities above. -/
def sampleDoc : Document := ⟨sampleText, "f.txt", [entDrug, entDegenerate], []⟩

/-- The parse result of `sampleDoc`, computed by evaluation. -/
def sampleParsedDoc : Document :=
  (parseDocument sampleNlp sampleDoc).getD dummyDocument

/-- Witness for C4 on `sampleDoc`. -/
theorem parse_appends_one_sentence_witness :
    ∃ d' s, parseDocument sampleNlp sampleDoc = some d' ∧
      d'.sentences = sampleDoc.sentences ++ [s] ∧
      d'.sentences.length = sampleDoc.sentences.length + 1 :=
  parse_appends_one_sentence sampleNlp sampleDoc (by decide)

/-- C6: round-trip — assuming the pipeline's offsets are faithful to the
document text (spacy's non-destructive tokenisation contract: the slice at
`[idx, idx + len(text))` is the token's surface text), every token of the
appended sentence satisfies `endPos = startPos + |word|`, fits inside the
document text, and slices back to its surface text. -/
theorem token_roundtrip (nlp : List Char → List SpacyToken) (d d' : Document)
    (hvalid : ∀ st ∈ nlp d.text, st.idx + st.text.length ≤ d.text.length ∧
      pySlice d.text st.idx (st.idx + st.text.length) = st.text)
    (h : parseDocument nlp d = some d') :
    ∃ s, d'.sentences = d.sentences ++ [s] ∧
      ∀ tok ∈ s.tokens,
        tok.endPos = tok.startPos + tok.word.length ∧
        tok.endPos ≤ d.text.length ∧
        pySlice d.text tok.startPos tok.endPos = tok.word := by
  obtain ⟨s, hds, rfl⟩ := parseDocument_some_iff.mp h
  refine ⟨s, rfl, ?_⟩
  cases hn : nlp d.text with
  | nil =>
    rw [docSentence_eq_none_iff.mpr hn] at hds
    simp at hds
  | cons st0 rest =>
    rw [docSentence_cons hn] at hds
    injection hds with hds
    subst hds
    intro tok htok
    obtain ⟨st, hst, rfl⟩ := List.mem_map.mp htok
    obtain ⟨h1, h2⟩ := hvalid st (by rw [hn]; exact hst)
    exact ⟨rfl, h1, h2⟩

/-- Witness for C6 on `sampleDoc`. -/
theorem token_roundtrip_witness :
    ∃ s, sampleParsedDoc.sentences = sampleDoc.sentences ++ [s] ∧
      ∀ tok ∈ s.tokens,
        tok.endPos = tok.startPos + tok.word.length ∧
        tok.endPos ≤ sampleDoc.text.length ∧
        pySlice sampleDoc.text tok.startPos tok.endPos = tok.word :=
  token_roundtrip sampleNlp sampleDoc sampleParsedDoc (by decide) (by rfl)

/-- C8: the appended sentence has exactly one dependency edge per lexical
item, and — assuming the pipeline's token indices within the unit are
consecutive from the first token's index, as spacy document order
provides — the k-th edge is `(head.i - indexOffset, k, dep_)` with
`indexOffset` the first token's pipeline index (line 85-90). -/
theorem dependencies_one_edge_per_token (nlp : List Char → List SpacyToken)
    (d d' : Document) (h : parseDocument nlp d = some d')
    (hconsec : ∀ k < (nlp d.text).length,
      ((nlp d.text).getD k dummySpacyToken).i =
        ((nlp d.text).getD 0 dummySpacyToken).i + k) :
    ∃ s, d'.sentences = d.sentences ++ [s] ∧
      s.dependencies.length = s.tokens.length ∧
      ∀ k < s.dependencies.length,
        s.dependencies.getD k (0, 0, "") =
          ((((nlp d.text).getD k dummySpacyToken).headI : Int) -
              (((nlp d.text).getD 0 dummySpacyToken).i : Int),
            ((k : Int), ((nlp d.text).getD k dummySpacyToken).dep)) := by
  obtain ⟨s, hds, rfl⟩ := parseDocument_some_iff.mp h
  refine ⟨s, rfl, ?_⟩
  cases hn : nlp d.text with
  | nil =>
    rw [docSentence_eq_none_iff.mpr hn] at hds
    simp at hds
  | cons st0 rest =>
    rw [docSentence_cons hn] at hds
    injection hds with hds
    subst hds
    constructor
    · simp
    · intro k hk
      have hk' : k < (st0 :: rest).length := by simpa using hk
      have hcons := hconsec k (by rw [hn]; simpa using hk')
      rw [hn] at hcons
      show (List.map (fun t => ((t.headI : Int) - (st0.i : Int),
          ((t.i : Int) - (st0.i : Int), t.dep))) (st0 :: rest)).getD k (0, 0, "") = _
      rw [getD_map_of_lt _ _ k hk' dummySpacyToken]
      have h0 : (st0 :: rest).getD 0 dummySpacyToken = st0 := rfl
      rw [h0] at hcons
      rw [Prod.mk.injEq, Prod.mk.injEq]
      refine ⟨by rw [h0], ?_, rfl⟩
      omega

/-- Witness for C8 on `sampleDoc`. -/
theorem dependencies_one_edge_per_token_witness :
    ∃ s, sampleParsedDoc.sentences = sampleDoc.sentences ++ [s] ∧
      s.dependencies.length = s.tokens.length ∧
      ∀ k < s.dependencies.length,
        s.dependencies.getD k (0, 0, "") =
          ((((sampleNlp sampleDoc.text).getD k dummySpacyToken).headI : Int) -
              (((sampleNlp sampleDoc.text).getD 0 dummySpacyToken).i : Int),
            ((k : Int), ((sampleNlp sampleDoc.text).getD k dummySpacyToken).dep)) :=
  dependencies_one_edge_per_token sampleNlp sampleDoc sampleParsedDoc
    (by rfl) (by decide)

/-- Bridging the interval structure and entity spans: when entity IDs are
unique, a query range has an overlapping stored interval carrying `e`'s ID
iff some non-degenerate span of `e` overlaps the range. -/
lemma exists_overlap_iff {entities : List Entity}
    (huniq : (entities.map Entity.entityID).Nodup) {e : Entity}
    (he : e ∈ entities) (a b : Nat) :
    (∃ iv ∈ treeOverlaps (buildDenotationTree entities) a b,
        iv.data = e.entityID) ↔
      ∃ ab ∈ e.position, ab.1 < ab.2 ∧ ab.1 < b ∧ a < ab.2 := by
  constructor
  · rintro ⟨iv, hiv, hdata⟩
    obtain ⟨hivtree, hlo, hhi⟩ := mem_treeOverlaps.mp hiv
    obtain ⟨e', he', ab, hab, habord, rfl⟩ := mem_buildDenotationTree.mp hivtree
    have heq : e' = e := List.inj_on_of_nodup_map huniq he' he hdata
    subst heq
    exact ⟨ab, hab, habord, hlo, hhi⟩
  · rintro ⟨ab, hab, habord, h1, h2⟩
    refine ⟨⟨ab.1, ab.2, e.entityID⟩, mem_treeOverlaps.mpr ⟨?_, h1, h2⟩, rfl⟩
    exact mem_buildDenotationTree.mpr ⟨e, he, ab, hab, habord, rfl⟩

/-- C7: entity spans with `b ≤ a` are skipped during interval indexing
without error — parsing fails only on an empty token stream — and an
entity all of whose spans are empty or inverted stores no interval, aligns
to no token, and is absent from the appended sentence's entity annotations
(entity identifiers unique per document, the spec's data-model
invariant). -/
theorem degenerate_spans_silently_skipped (nlp : List Char → List SpacyToken)
    (d : Document) (e : Entity)
    (huniq : (d.entities.map Entity.entityID).Nodup)
    (he : e ∈ d.entities)
    (hdeg : ∀ ab ∈ e.position, ab.2 ≤ ab.1) :
    (∀ iv ∈ buildDenotationTree d.entities, iv.data ≠ e.entityID) ∧
    (parseDocument nlp d = none ↔ nlp d.text = []) ∧
    (∀ d', parseDocument nlp d = some d' →
      ∃ s, d'.sentences = d.sentences ++ [s] ∧
        entityIDsToTokenLocs (buildDenotationTree d.entities) s.tokens
          e.entityID = [] ∧
        ∀ pr ∈ s.entityAnnotations, pr.1 ≠ e) := by
  have hnotree : ∀ iv ∈ buildDenotationTree d.entities, iv.data ≠ e.entityID := by
    intro iv hiv hdata
    obtain ⟨e', he', ab, hab, habord, rfl⟩ := mem_buildDenotationTree.mp hiv
    have heq : e' = e := List.inj_on_of_nodup_map huniq he' he hdata
    subst heq
    exact absurd (hdeg ab hab) (by omega)
  have hparse : parseDocument nlp d = none ↔ nlp d.text = [] := by
    unfold parseDocument
    rw [Option.map_eq_none', docSentence_eq_none_iff]
  refine ⟨hnotree, hparse, fun d' h => ?_⟩
  obtain ⟨s, hds, rfl⟩ := parseDocument_some_iff.mp h
  cases hn : nlp d.text with
  | nil =>
    rw [docSentence_eq_none_iff.mpr hn] at hds
    simp at hds
  | cons st0 rest =>
    rw [docSentence_cons hn] at hds
    injection hds with hds
    subst hds
    refine ⟨_, rfl, ?_, ?_⟩
    · rw [List.eq_nil_iff_forall_not_mem]
      intro j hj
      obtain ⟨k, hk, hjk, iv, hiv, hdata⟩ := mem_collectLocs.mp hj
      exact hnotree iv (mem_treeOverlaps.mp hiv).1 hdata
    · intro pr hpr hcontra
      obtain ⟨eid, hkey, hmap⟩ := List.mem_filterMap.mp hpr
      obtain ⟨e₀, hlook, hpair⟩ := Option.map_eq_some'.mp hmap
      obtain ⟨hmem₀, hid₀⟩ := entityIDsToEntities_spec hlook
      have he₀e : e₀ = e := by
        have := congrArg Prod.fst hpair
        simpa [hcontra] using this
      subst he₀e
      obtain ⟨tok, htok, iv, hiv, hdata⟩ :=
        mem_collectKeys.mp (mem_sortedDictKeys.mp hkey)
      exact hnotree iv (mem_treeOverlaps.mp hiv).1 (hdata.trans hid₀.symm)

/-- Witness for C7: `entDegenerate` in `sampleDoc`. -/
theorem degenerate_spans_silently_skipped_witness :
    (∀ iv ∈ buildDenotationTree sampleDoc.entities,
      iv.data ≠ entDegenerate.entityID) ∧
    (parseDocument sampleNlp sampleDoc = none ↔ sampleNlp sampleDoc.text = []) ∧
    (∀ d', parseDocument sampleNlp sampleDoc = some d' →
      ∃ s, d'.sentences = sampleDoc.sentences ++ [s] ∧
        entityIDsToTokenLocs (buildDenotationTree sampleDoc.entities) s.tokens
          entDegenerate.entityID = [] ∧
        ∀ pr ∈ s.entityAnnotations, pr.1 ≠ entDegenerate) :=
  degenerate_spans_silently_skipped sampleNlp sampleDoc entDegenerate
    (by decide) (by decide) (by decide)

/-- C3: for the sentence appended to a document whose entity identifiers
are unique, (a) every annotation pair `(e, locs)` has `e` among the
document's entities, membership `i ∈ locs` holds iff `i` indexes a token
whose character span `[startPos, endPos)` overlaps some span `(a,b)` of
`e` with `b > a`, and `locs` is in token order (non-decreasing; a token
index recurs once per distinct overlapping stored span); (b) every entity
with such an overlapping non-degenerate span receives an annotation. -/
theorem entity_token_alignment (nlp : List Char → List SpacyToken)
    (d d' : Document)
    (huniq : (d.entities.map Entity.entityID).Nodup)
    (h : parseDocument nlp d = some d') :
    ∃ s, d'.sentences = d.sentences ++ [s] ∧
      (∀ e locs, (e, locs) ∈ s.entityAnnotations →
        e ∈ d.entities ∧
        (∀ i, i ∈ locs ↔ (i < s.tokens.length ∧
          ∃ ab ∈ e.position, ab.1 < ab.2 ∧
            ab.1 < (s.tokens.getD i dummyToken).endPos ∧
            (s.tokens.getD i dummyToken).startPos < ab.2)) ∧
        locs.Sorted (· ≤ ·)) ∧
      (∀ e ∈ d.entities,
        (∃ i, i < s.tokens.length ∧ ∃ ab ∈ e.position, ab.1 < ab.2 ∧
          ab.1 < (s.tokens.getD i dummyToken).endPos ∧
          (s.tokens.getD i dummyToken).startPos < ab.2) →
        ∃ locs, (e, locs) ∈ s.entityAnnotations) := by
  obtain ⟨s, hds, rfl⟩ := parseDocument_some_iff.mp h
  cases hn : nlp d.text with
  | nil =>
    rw [docSentence_eq_none_iff.mpr hn] at hds
    simp at hds
  | cons st0 rest =>
    rw [docSentence_cons hn] at hds
    injection hds with hds
    subst hds
    have hmemlocs : ∀ (e : Entity), e ∈ d.entities → ∀ i : Nat,
        (i ∈ entityIDsToTokenLocs (buildDenotationTree d.entities)
            (List.map mkToken (st0 :: rest)) e.entityID ↔
          (i < (List.map mkToken (st0 :: rest)).length ∧
            ∃ ab ∈ e.position, ab.1 < ab.2 ∧
              ab.1 < ((List.map mkToken (st0 :: rest)).getD i dummyToken).endPos ∧
              ((List.map mkToken (st0 :: rest)).getD i dummyToken).startPos
                < ab.2)) := by
      intro e he i
      unfold entityIDsToTokenLocs
      rw [mem_collectLocs]
      constructor
      · rintro ⟨k, hk, hik, iv, hiv, hdata⟩
        have hik' : i = k := by omega
        subst hik'
        exact ⟨hk, (exists_overlap_iff huniq he _ _).mp ⟨iv, hiv, hdata⟩⟩
      · rintro ⟨hi, hov⟩
        obtain ⟨iv, hiv, hdata⟩ := (exists_overlap_iff huniq he _ _).mpr hov
        exact ⟨i, hi, by omega, iv, hiv, hdata⟩
    refine ⟨_, rfl, ?_, ?_⟩
    · intro e locs hpr
      obtain ⟨eid, hkey, hmap⟩ := List.mem_filterMap.mp hpr
      obtain ⟨e₀, hlook, hpair⟩ := Option.map_eq_some'.mp hmap
      obtain ⟨he₀, hid₀⟩ := entityIDsToEntities_spec hlook
      have he₀e : e₀ = e := congrArg Prod.fst hpair
      subst he₀e
      have hlocs : entityIDsToTokenLocs (buildDenotationTree d.entities)
          (List.map mkToken (st0 :: rest)) eid = locs := congrArg Prod.snd hpair
      refine ⟨he₀, ?_, ?_⟩
      · intro i
        rw [← hlocs, ← hid₀]
        exact hmemlocs e₀ he₀ i
      · rw [← hlocs]
        exact collectLocs_sorted _ _ _ _
    · rintro e he ⟨i, hi, hov⟩
      refine ⟨entityIDsToTokenLocs (buildDenotationTree d.entities)
        (List.map mkToken (st0 :: rest)) e.entityID, ?_⟩
      apply List.mem_filterMap.mpr
      refine ⟨e.entityID, ?_, ?_⟩
      · rw [mem_sortedDictKeys, mem_collectKeys]
        refine ⟨(List.map mkToken (st0 :: rest)).getD i dummyToken,
          getD_mem_of_lt _ _ (by simpa using hi) _, ?_⟩
        exact (exists_overlap_iff huniq he _ _).mpr hov
      · rw [entityIDsToEntities_of_nodup huniq he]
        rfl

/-- Witness for C3 on `sampleDoc`. -/
theorem entity_token_alignment_witness :
    ∃ s, sampleParsedDoc.sentences = sampleDoc.sentences ++ [s] ∧
      (∀ e locs, (e, locs) ∈ s.entityAnnotations →
        e ∈ sampleDoc.entities ∧
        (∀ i, i ∈ locs ↔ (i < s.tokens.length ∧
          ∃ ab ∈ e.position, ab.1 < ab.2 ∧
            ab.1 < (s.tokens.getD i dummyToken).endPos ∧
            (s.tokens.getD i dummyToken).startPos < ab.2)) ∧
        locs.Sorted (· ≤ ·)) ∧
      (∀ e ∈ sampleDoc.entities,
        (∃ i, i < s.tokens.length ∧ ∃ ab ∈ e.position, ab.1 < ab.2 ∧
          ab.1 < (s.tokens.getD i dummyToken).endPos ∧
          (s.tokens.getD i dummyToken).startPos < ab.2) →
        ∃ locs, (e, locs) ∈ s.entityAnnotations) :=
  entity_token_alignment sampleNlp sampleDoc sampleParsedDoc (by decide) (by rfl)

/-- A successful document step appends one sentence, and re-running it on
the result appends the same sentence again: the computation reads only
`text`, `entities` and `sourceFilename`, which the step leaves
untouched. -/
lemma parseDocument_rerun {nlp : List Char → List SpacyToken}
    {d d' : Document} (h : parseDocument nlp d = some d') :
    ∃ s, d'.sentences = d.sentences ++ [s] ∧
      parseDocument nlp d' = some { d' with sentences := d'.sentences ++ [s] } := by
  obtain ⟨s, hds, rfl⟩ := parseDocument_some_iff.mp h
  refine ⟨s, rfl, ?_⟩
  unfold parseDocument
  rw [docSentence_sentences_irrel nlp d (d.sentences ++ [s]), hds]
  rfl

/-- Re-running the document loop duplicates every document's appended
sentence. -/
lemma parseDocs_rerun {nlp : List Char → List SpacyToken}
    {ds ds' : List Document} (h : parseDocs nlp ds = some ds') :
    ∃ ds'', parseDocs nlp ds' = some ds'' ∧
      ds'.length = ds.length ∧ ds''.length = ds.length ∧
      ∀ k < ds.length, ∃ s,
        (ds'.getD k dummyDocument).sentences =
          (ds.getD k dummyDocument).sentences ++ [s] ∧
        (ds''.getD k dummyDocument).sentences =
          (ds.getD k dummyDocument).sentences ++ [s, s] := by
  induction ds generalizing ds' with
  | nil =>
    have hds' : ds' = [] := by
      simpa [parseDocs] using h.symm
    subst hds'
    exact ⟨[], by simp [parseDocs], rfl, rfl, by intro k hk; cases hk⟩
  | cons dd dds ih =>
    cases h1 : parseDocument nlp dd with
    | none => rw [parseDocs, h1] at h; cases h
    | some d2 =>
      cases h2 : parseDocs nlp dds with
      | none => rw [parseDocs, h1, h2] at h; cases h
      | some ds2 =>
        rw [parseDocs, h1, h2] at h
        injection h with h
        subst h
        obtain ⟨s, hs1, hre⟩ := parseDocument_rerun h1
        obtain ⟨ds2', hds2', hlen2, hlen2', hk⟩ := ih h2
        refine ⟨{ d2 with sentences := d2.sentences ++ [s] } :: ds2',
          ?_, by simp [hlen2], by simp [hlen2'], ?_⟩
        · rw [parseDocs, hre, hds2']
        · intro k hkk
          match k with
          | 0 =>
            refine ⟨s, by simpa using hs1, ?_⟩
            show d2.sentences ++ [s] = dd.sentences ++ [s, s]
            rw [hs1]
            simp
          | k + 1 =>
            exact hk k (by simpa using hkk)

/-- C10: `parse` never reads the corpus's `parsed` flag (the result is the
same for either flag value); a successful parse sets the flag, and
re-parsing the already-parsed corpus re-runs all processing, appending
each document's sentence a second time — so `parse` is not idempotent on
any corpus with at least one (non-empty) document. -/
theorem parse_reruns_and_duplicates (nlp : List Char → List SpacyToken)
    (c c₁ : Corpus) (h : parse nlp c = some c₁) :
    (∀ b : Bool, parse nlp { documents := c.documents, parsed := b } = some c₁) ∧
    c₁.parsed = true ∧
    ∃ c₂, parse nlp c₁ = some c₂ ∧ c₂.parsed = true ∧
      (∀ k < c.documents.length, ∃ s,
        (c₁.documents.getD k dummyDocument).sentences =
          (c.documents.getD k dummyDocument).sentences ++ [s] ∧
        (c₂.documents.getD k dummyDocument).sentences =
          (c.documents.getD k dummyDocument).sentences ++ [s, s]) ∧
      (c.documents ≠ [] → c₂ ≠ c₁) := by
  cases hds : parseDocs nlp c.documents with
  | none => rw [parse, hds] at h; cases h
  | some ds' =>
    rw [parse, hds] at h
    injection h with h
    obtain ⟨ds'', hds'', hlen1, hlen2, hk⟩ := parseDocs_rerun hds
    have hc₁ : c₁.documents = ds' := by rw [← h]
    have hc₁p : c₁.parsed = true := by rw [← h]
    refine ⟨fun b => by
        rw [parse]
        rw [show (Corpus.mk c.documents b).documents = c.documents from rfl, hds]
        exact congrArg some h, hc₁p, ?_⟩
    refine ⟨⟨ds'', true⟩, by rw [parse, hc₁, hds''], rfl, ?_, ?_⟩
    · intro k hkk
      obtain ⟨s, h1, h2⟩ := hk k hkk
      exact ⟨s, by rw [hc₁]; exact h1, h2⟩
    · intro hne hcon
      have hdd : ds'' = ds' := by
        have := congrArg Corpus.documents hcon
        simpa [hc₁] using this
      have hlenpos : 0 < c.documents.length := by
        cases hcd : c.documents
        · exact absurd hcd hne
        · simp
      obtain ⟨s, h1, h2⟩ := hk 0 hlenpos
      rw [hdd, h1] at h2
      have := congrArg List.length h2
      simp at this

/-- A one-document corpus over `sampleDoc`, not yet parsed. -/
def sampleCorpus : Corpus := ⟨[sampleDoc], false⟩

/-- The parse result of `sampleCorpus`, computed by evaluation. -/
def sampleParsedCorpus : Corpus :=
  (parse sampleNlp sampleCorpus).getD ⟨[], true⟩

/-- Witness for C10 on `sampleCorpus`. -/
theorem parse_reruns_and_duplicates_witness :
    (∀ b : Bool, parse sampleNlp
        { documents := sampleCorpus.documents, parsed := b } =
      some sampleParsedCorpus) ∧
    sampleParsedCorpus.parsed = true ∧
    ∃ c₂, parse sampleNlp sampleParsedCorpus = some c₂ ∧ c₂.parsed = true ∧
      (∀ k < sampleCorpus.documents.length, ∃ s,
        (sampleParsedCorpus.documents.getD k dummyDocument).sentences =
          (sampleCorpus.documents.getD k dummyDocument).sentences ++ [s] ∧
        (c₂.documents.getD k dummyDocument).sentences =
          (sampleCorpus.documents.getD k dummyDocument).sentences ++ [s, s]) ∧
      (sampleCorpus.documents ≠ [] → c₂ ≠ sampleParsedCorpus) :=
  parse_reruns_and_duplicates sampleNlp sampleCorpus sampleParsedCorpus (by rfl)
